import Mathlib

/-!
Shallow embedding of `benford.py`: a checker of conformance of numerical
count data to Benford's Law.  Python strings are modeled as `List Char`,
Python floats as `ℚ`, fallible computations (a `sys.exit` on bad input, an
uncaught `IndexError` or `ZeroDivisionError`) as `Except`.
-/

namespace Benford

/-- A raw textual token (a Python string), modeled as its list of characters. -/
abbrev Token := List Char

/-- Benford's Law percentages for leading digits 1-9 (line 9 of the source):
`BENFORD = [30.1, 17.6, 12.5, 9.7, 7.9, 6.7, 5.8, 5.1, 4.6]`. -/
def BENFORD : List ℚ := [30.1, 17.6, 12.5, 9.7, 7.9, 6.7, 5.8, 5.1, 4.6]

/-- Python `str.isdigit()` for ASCII content: true iff the string is
non-empty and every character is a decimal digit. -/
def pyIsdigit (s : Token) : Bool := !s.isEmpty && s.all Char.isDigit

/-- The rejection test of the validation loop (line 30 of the source):
`sample.startswith('0') or '.' in sample or not sample.isdigit()`. -/
def badToken (s : Token) : Bool :=
  s.head? == some '0' || s.contains '.' || !pyIsdigit s

/-- The error signalled by `count_first_digits` when a sample fails
validation (the source prints the sample and calls `sys.exit(1)`). -/
inductive BatchError where
  | invalidSample (s : Token)
deriving DecidableEq

/-- The number of occurrences, among the tokens of `data`, of leading
character `c` — the value `first_digits[c]` of the `defaultdict` built by
the counting loop (line 36 of the source). -/
def headCount (data : List Token) (c : Char) : Nat :=
  (data.filter (fun s => s.head? == some c)).length

/-- The possible keys of the `defaultdict` for a batch that passed
validation: every valid token is non-empty, all digits, and does not start
with `'0'`, so its leading character is one of `'1'`..`'9'`, in this
(ascending) order. -/
def digitChars : List Char := ['1', '2', '3', '4', '5', '6', '7', '8', '9']

/-- The list `data_count` (line 38 of the source): the values of
`OrderedDict(sorted(first_digits.items()))`.  The dict's keys are the
leading characters that actually occur, sorted ascending; materializing it
walks `'1'`..`'9'` in order and keeps the digits with a nonzero count
(a key is present in the `defaultdict` exactly when it was incremented). -/
def dataCount (data : List Token) : List Nat :=
  (digitChars.map (headCount data)).filter (fun v => v != 0)

/-- The list `data_pct` (line 40 of the source): `[(i / total_count) * 100 for i in
data_count]`.  (When `total_count = 0` the list `data_count` is empty, so
no division is ever evaluated by the source; the `ℚ` division here is then
likewise never applied.) -/
def dataPct (dc : List Nat) (tc : Nat) : List ℚ :=
  dc.map (fun i => ((i : ℚ) / (tc : ℚ)) * 100)

/-- The function `count_first_digits` (lines 26-41 of the source): scan the batch for a
bad sample (the Python loop exits the program at the first one, counting
nothing further and returning nothing), otherwise tabulate leading-digit
counts, percentages and the total. -/
def count_first_digits (data : List Token) :
    Except BatchError (List Nat × List ℚ × Nat) :=
  match data.find? badToken with
  | some s => .error (.invalidSample s)
  | none =>
      let dc := dataCount data
      let tc := dc.sum
      .ok (dc, dataPct dc tc, tc)

/-- Python `int()` applied to a float/rational: truncation toward zero. -/
def pyInt (q : ℚ) : ℤ := if 0 ≤ q then ⌊q⌋ else -⌊-q⌋

deriving instance DecidableEq for Except

/-- The function `get_expected_counts` (lines 43-50 of the source):
`expected_probs = [i / 100 for i in BENFORD]` and then
`int(i * total_count)` for each probability.  The `data_count` argument is
accepted (as in the source) and never read. -/
def get_expected_counts (_data_count : List Nat) (totalCount : Nat) : List ℤ :=
  (BENFORD.map (fun i => i / 100)).map (fun i => pyInt (i * (totalCount : ℚ)))

/-- The run-time faults the chi-square loop can raise: `data_count[i]` or
`expected_counts[i]` out of range (Python `IndexError`), or
`chi_square1 / expected_counts[i]` with a zero divisor (Python
`ZeroDivisionError`). -/
inductive ChiError where
  | indexError
  | zeroDivisionError
deriving DecidableEq

/-- The loop `for i in range(0, 9)` of `chi_square` (lines 55-58 of the
source), with explicit fuel; at each index the subscripts are read first
(an out-of-range read raises `IndexError`), then
`(data_count[i] - expected_counts[i])**2 / expected_counts[i]` is computed
(raising `ZeroDivisionError` when the divisor is zero) and accumulated. -/
def chiAux (dc : List Nat) (ec : List ℤ) : Nat → Nat → ℚ → Except ChiError ℚ
  | 0, _, acc => .ok acc
  | fuel + 1, i, acc =>
    match dc[i]?, ec[i]? with
    | some o, some e =>
        if e = 0 then .error .zeroDivisionError
        else chiAux dc ec fuel (i + 1) (acc + ((o : ℚ) - (e : ℚ)) ^ 2 / (e : ℚ))
    | _, _ => .error .indexError

/-- The value `chi_square_stat` as accumulated by `chi_square` (lines 54-58). -/
def chiSquareStat (dc : List Nat) (ec : List ℤ) : Except ChiError ℚ :=
  chiAux dc ec 9 0 0

/-- The function `chi_square` (lines 52-63 of the source): the statistic, compared with
the fixed critical value — it returns `chi_square_stat < 15.51`. -/
def chi_square (dc : List Nat) (ec : List ℤ) : Except ChiError Bool :=
  (chiSquareStat dc ec).map (fun stat => decide (stat < 15.51))

/-- The statistical pipeline of `main` (lines 101-118 of the source, the
I/O and plotting stripped): extraction, expectation, goodness-of-fit. -/
def pipeline (data : List Token) :
    Except BatchError (List Nat × List ℚ × Nat × List ℤ × Except ChiError Bool) :=
  match count_first_digits data with
  | .error e => .error e
  | .ok (dc, pct, tc) =>
      let ec := get_expected_counts dc tc
      .ok (dc, pct, tc, ec, chi_square dc ec)

/-- The summand of the chi-square statistic at digit index `j`
(digit `j + 1`), read off the two count sequences. -/
def chiTermAt (dc : List Nat) (ec : List ℤ) (j : Nat) : ℚ :=
  ((dc.getD j 0 : ℚ) - (ec.getD j 0 : ℚ)) ^ 2 / (ec.getD j 0 : ℚ)

/-- Truncation agrees with the floor on nonnegative arguments; concrete
evaluations go through explicit floor bounds. -/
theorem pyInt_eq_of {q : ℚ} {z : ℤ} (hz : 0 ≤ z) (h1 : (z : ℚ) ≤ q) (h2 : q < z + 1) :
    pyInt q = z := by
  have h0 : 0 ≤ q := le_trans (by exact_mod_cast hz) h1
  rw [pyInt, if_pos h0]
  exact Int.floor_eq_iff.mpr ⟨h1, h2⟩

theorem chiAux_ok_sum (dc : List Nat) (ec : List ℤ) (hz : ∀ e ∈ ec, e ≠ 0) :
    ∀ (fuel i : Nat) (acc : ℚ), i + fuel ≤ dc.length → i + fuel ≤ ec.length →
      chiAux dc ec fuel i acc =
        .ok (acc + ∑ j ∈ Finset.range fuel, chiTermAt dc ec (i + j)) := by
  intro fuel
  induction fuel with
  | zero => intro i acc _ _; simp [chiAux]
  | succ fuel ih =>
    intro i acc h1 h2
    have hi1 : i < dc.length := by omega
    have hi2 : i < ec.length := by omega
    have ho : dc[i]? = some dc[i] := List.getElem?_eq_getElem hi1
    have he : ec[i]? = some ec[i] := List.getElem?_eq_getElem hi2
    have hne : ec[i] ≠ 0 := hz _ (List.getElem?_mem he)
    have hTd : dc.getD i 0 = dc[i] := by rw [List.getD_eq_getElem?_getD, ho]; rfl
    have hTe : ec.getD i 0 = ec[i] := by rw [List.getD_eq_getElem?_getD, he]; rfl
    rw [chiAux, ho, he]
    simp only [if_neg hne]
    rw [ih (i + 1) _ (by omega) (by omega)]
    congr 1
    rw [Finset.sum_range_succ']
    have hidx : ∀ j, i + 1 + j = i + (j + 1) := fun j => by omega
    simp only [hidx, Nat.add_zero]
    have hT0 : chiTermAt dc ec i = ((dc[i] : ℚ) - (ec[i] : ℚ)) ^ 2 / (ec[i] : ℚ) := by
      rw [chiTermAt, hTd, hTe]
    rw [hT0]
    ring

theorem chiAux_zeroDiv (dc : List Nat) (ec : List ℤ) :
    ∀ (k fuel i : Nat) (acc : ℚ), k < fuel →
      (∀ j, j < k → (i + j < dc.length ∧ ∃ e, ec[i + j]? = some e ∧ e ≠ 0)) →
      i + k < dc.length → ec[i + k]? = some 0 →
      chiAux dc ec fuel i acc = .error .zeroDivisionError := by
  intro k
  induction k with
  | zero =>
    intro fuel i acc hf _ hd he
    obtain ⟨fuel, rfl⟩ : ∃ f, fuel = f + 1 := ⟨fuel - 1, by omega⟩
    have hi1 : i < dc.length := by omega
    have ho : dc[i]? = some dc[i] := List.getElem?_eq_getElem hi1
    have he0 : ec[i]? = some 0 := by simpa using he
    rw [chiAux, ho, he0]
    simp
  | succ k ih =>
    intro fuel i acc hf hclean hd he
    obtain ⟨fuel, rfl⟩ : ∃ f, fuel = f + 1 := ⟨fuel - 1, by omega⟩
    obtain ⟨hd0, e, he0, hne⟩ := by simpa using hclean 0 (by omega)
    have ho : dc[i]? = some dc[i] := List.getElem?_eq_getElem hd0
    rw [chiAux, ho, he0]
    simp only [if_neg hne]
    refine ih fuel (i + 1) _ (by omega) ?_ (by omega) ?_
    · intro j hj
      have hsh : i + 1 + j = i + (j + 1) := by omega
      rw [hsh]
      exact hclean (j + 1) (by omega)
    · have : i + 1 + k = i + (k + 1) := by omega
      rw [this]
      exact he

theorem chiAux_indexErr (dc : List Nat) (ec : List ℤ) :
    ∀ (k fuel i : Nat) (acc : ℚ), k < fuel →
      (∀ j, j < k → (i + j < dc.length ∧ ∃ e, ec[i + j]? = some e ∧ e ≠ 0)) →
      (dc[i + k]? = none ∨ ec[i + k]? = none) →
      chiAux dc ec fuel i acc = .error .indexError := by
  intro k
  induction k with
  | zero =>
    intro fuel i acc hf _ hnone
    obtain ⟨fuel, rfl⟩ : ∃ f, fuel = f + 1 := ⟨fuel - 1, by omega⟩
    have hnone' : dc[i]? = none ∨ ec[i]? = none := by simpa using hnone
    cases hdc : dc[i]? with
    | none =>
      cases hec : ec[i]? with
      | none => rw [chiAux, hdc, hec]
      | some e => rw [chiAux, hdc, hec]
    | some o =>
      have hec : ec[i]? = none := by
        rcases hnone' with h | h
        · rw [hdc] at h; cases h
        · exact h
      rw [chiAux, hdc, hec]
  | succ k ih =>
    intro fuel i acc hf hclean hnone
    obtain ⟨fuel, rfl⟩ : ∃ f, fuel = f + 1 := ⟨fuel - 1, by omega⟩
    obtain ⟨hd0, e, he0, hne⟩ := by simpa using hclean 0 (by omega)
    have ho : dc[i]? = some dc[i] := List.getElem?_eq_getElem hd0
    rw [chiAux, ho, he0]
    simp only [if_neg hne]
    refine ih fuel (i + 1) _ (by omega) ?_ ?_
    · intro j hj
      have hsh : i + 1 + j = i + (j + 1) := by omega
      rw [hsh]
      exact hclean (j + 1) (by omega)
    · have : i + 1 + k = i + (k + 1) := by omega
      rw [this]
      exact hnone

/-- A character that passes `Char.isDigit` and is not `'0'` is one of the
nine possible leading-digit characters. -/
theorem mem_digitChars (c : Char) (hd : c.isDigit = true) (h0 : c ≠ '0') :
    c ∈ digitChars := by
  have hn : 48 ≤ c.toNat ∧ c.toNat ≤ 57 := by
    simp [Char.isDigit] at hd
    exact hd
  have h48 : c.toNat ≠ 48 := by
    intro h
    apply h0
    have hc := Char.ofNat_toNat c
    rw [h] at hc
    exact hc.symm
  have hc := Char.ofNat_toNat c
  obtain ⟨h1, h2⟩ := hn
  set n := c.toNat with hn_def
  rw [← hc]
  interval_cases n <;> first | (exact absurd rfl h48) | decide

/-- A token that passes validation is non-empty and its leading character
is one of `'1'`..`'9'`. -/
theorem head_mem_digitChars (t : Token) (hvt : badToken t = false) :
    ∃ h tl, t = h :: tl ∧ h ∈ digitChars := by
  rcases t with _ | ⟨h, tl⟩
  · exact absurd hvt (by decide)
  · refine ⟨h, tl, rfl, ?_⟩
    simp [badToken, pyIsdigit] at hvt
    exact mem_digitChars h (by tauto) (by tauto)

theorem map_add_sum (l : List Char) (f g : Char → Nat) :
    (l.map (fun c => f c + g c)).sum = (l.map f).sum + (l.map g).sum := by
  induction l with
  | nil => rfl
  | cons a l ih => simp [ih]; omega

theorem headCount_cons (t : Token) (data : List Token) (c : Char) :
    headCount (t :: data) c =
      (if (t.head? == some c) = true then 1 else 0) + headCount data c := by
  rw [headCount, headCount, List.filter_cons]
  split <;> simp <;> omega

theorem sum_indicator (h : Char) (hmem : h ∈ digitChars) :
    (digitChars.map (fun c => if (some h == some c : Bool) = true then 1 else 0)).sum = 1 := by
  fin_cases hmem <;> decide

/-- Each valid token is tallied into exactly one bucket of the frequency
dict, so the bucket values sum to the number of tokens. -/
theorem sum_headCounts (data : List Token) (hv : ∀ t ∈ data, badToken t = false) :
    (digitChars.map (headCount data)).sum = data.length := by
  induction data with
  | nil => rfl
  | cons t rest ih =>
    have hvt : badToken t = false := hv t (List.mem_cons_self t rest)
    have hvr : ∀ s ∈ rest, badToken s = false := fun s hs => hv s (List.mem_cons_of_mem t hs)
    obtain ⟨h, tl, rfl, hmem⟩ := head_mem_digitChars t hvt
    have hmap : digitChars.map (headCount ((h :: tl) :: rest)) =
        digitChars.map
          (fun c => (if (((h :: tl) : Token).head? == some c) = true then 1 else 0)
            + headCount rest c) :=
      List.map_congr_left (fun c _ => headCount_cons _ _ _)
    rw [hmap, map_add_sum, ih hvr]
    have hh : (((h :: tl) : Token).head?) = some h := rfl
    rw [hh, sum_indicator h hmem]
    simp [Nat.add_comm]

/-- Dropping the zero entries does not change the sum of a list of
naturals. -/
theorem sum_filter_nz (l : List Nat) : (l.filter (fun v => v != 0)).sum = l.sum := by
  induction l with
  | nil => rfl
  | cons a l ih =>
    rw [List.filter_cons]
    by_cases ha : a = 0
    · subst ha; simpa using ih
    · have : (a != 0) = true := by simpa using ha
      rw [if_pos this]
      simp [ih]

/-- Inversion of a successful run of `count_first_digits`. -/
theorem count_first_digits_ok_inv {data : List Token} {dc : List Nat} {pct : List ℚ} {tc : Nat}
    (h : count_first_digits data = .ok (dc, pct, tc)) :
    data.find? badToken = none ∧ dc = dataCount data ∧ tc = dc.sum ∧ pct = dataPct dc tc := by
  rw [count_first_digits] at h
  cases hf : data.find? badToken with
  | some s => rw [hf] at h; cases h
  | none =>
    rw [hf] at h
    simp only [Except.ok.injEq, Prod.mk.injEq] at h
    refine ⟨rfl, h.1.symm, ?_, ?_⟩
    · rw [← h.2.2, h.1]
    · rw [← h.2.1, h.2.2, h.1]

theorem length_filter_eq_iff (p : Nat → Bool) (l : List Nat) :
    (l.filter p).length = l.length ↔ ∀ a ∈ l, p a = true := by
  induction l with
  | nil => simp
  | cons a l ih =>
    rw [List.filter_cons]
    by_cases ha : p a = true
    · simp [ha, ih]
    · have hle := List.length_filter_le p l
      simp [ha]
      intro h
      omega

/-- A bucket of the frequency dict is non-zero exactly when some token
leads with that character. -/
theorem headCount_ne_zero_iff (data : List Token) (c : Char) :
    headCount data c ≠ 0 ↔ ∃ t ∈ data, t.head? = some c := by
  rw [headCount]
  rw [ne_eq, List.length_eq_zero]
  constructor
  · intro h
    rcases hne : data.filter (fun s => s.head? == some c) with _ | ⟨t, l⟩
    · exact absurd hne h
    · have ht : t ∈ data.filter (fun s => s.head? == some c) := by rw [hne]; exact List.mem_cons_self t l
      rw [List.mem_filter] at ht
      exact ⟨t, ht.1, by simpa using ht.2⟩
  · rintro ⟨t, ht, hhead⟩ hnil
    have : ∀ a ∈ data, ¬((fun s => s.head? == some c) a = true) := List.filter_eq_nil_iff.mp hnil
    exact this t ht (by simp [hhead])

/-- Every value kept in the materialized count sequence is non-zero. -/
theorem dataCount_mem_ne_zero (data : List Token) :
    ∀ v ∈ dataCount data, v ≠ 0 := by
  intro v hv
  rw [dataCount, List.mem_filter] at hv
  simpa using hv.2

/-! The claims C1-C10. -/

/-- C1: the spec says `count_first_digits` always returns 9-element count and
percentage sequences ordered by digit 1..9, with 0 at the position of an
unobserved digit.  The code does not zero-pad: a batch whose only leading
digit is `'1'` yields the one-element sequences `[1]` and `[100]`, and the
downstream `chi_square` loop over `range(0, 9)` (which, like `main`, assumes
nine entries) then reads past the end of the list — Python `IndexError`.  -/
theorem count_first_digits_no_padding :
    count_first_digits [['1']] = .ok ([1], [100], 1)
    ∧ ([1] : List Nat).length ≠ 9
    ∧ chiSquareStat [1] [30, 17, 12, 9, 7, 6, 5, 5, 4] = .error .indexError := by
  refine ⟨?_, by decide, by decide⟩
  have h : count_first_digits [['1']] = .ok ([1], dataPct [1] 1, 1) := rfl
  rw [h]
  norm_num [dataPct]

/-- C2, counterexample to the claimed pre-division detection: with
`total_count = 1` every expected bucket truncates to 0 and the chi-square
loop reaches and performs the division by zero (Python raises
`ZeroDivisionError` from the division itself); no check fires before the
division and no dedicated degenerate-expectation error exists in the code. -/
theorem chi_square_no_degenerate_check :
    get_expected_counts [1] 1 = [0, 0, 0, 0, 0, 0, 0, 0, 0]
    ∧ chiSquareStat [1] (get_expected_counts [1] 1) = .error .zeroDivisionError := by
  have hec : get_expected_counts [1] 1 = [0, 0, 0, 0, 0, 0, 0, 0, 0] := by
    simp only [get_expected_counts, BENFORD, List.map]
    refine List.ext_getElem (by simp) ?_
    intro i h1 h2
    have h9 : i < 9 := by simpa using h1
    interval_cases i <;>
      simp <;> exact pyInt_eq_of (by norm_num) (by norm_num) (by norm_num)
  refine ⟨hec, ?_⟩
  rw [hec]
  decide

/-- C2 (amended): when the chi-square loop first goes wrong at an index whose
expected count is zero (both reads at that index succeed, and every earlier
index divides by a non-zero expected count), the computation aborts with
`ZeroDivisionError` raised by the division itself: no statistic, infinity or
NaN is produced, and no dedicated error is signalled before dividing. -/
theorem chi_square_zero_expected_fails (dc : List Nat) (ec : List ℤ) (k : Nat)
    (hk : k < 9)
    (hclean : ∀ j, j < k → (j < dc.length ∧ ∃ e, ec[j]? = some e ∧ e ≠ 0))
    (hd : k < dc.length) (he : ec[k]? = some 0) :
    chiSquareStat dc ec = .error .zeroDivisionError := by
  rw [chiSquareStat]
  refine chiAux_zeroDiv dc ec k 9 0 0 hk ?_ (by simpa using hd) (by simpa using he)
  intro j hj
  simpa using hclean j hj

/-- Witness for the amended C2 at the `total_count = 1` expected counts. -/
theorem chi_square_zero_expected_fails_witness :
    chiSquareStat [1] [0, 0, 0, 0, 0, 0, 0, 0, 0] = .error .zeroDivisionError :=
  chi_square_zero_expected_fails [1] [0, 0, 0, 0, 0, 0, 0, 0, 0] 0 (by decide)
    (fun j hj => absurd hj (Nat.not_lt_zero j)) (by decide) (by decide)

/-- C3, counterexample to the claimed guard: the empty batch raises nothing —
`count_first_digits` returns `([], [], 0)` successfully (no `EmptyBatchError`
exists in the code). -/
theorem empty_batch_not_guarded :
    count_first_digits ([] : List Token) = .ok ([], [], 0) := rfl

/-- C3 (amended): an empty batch is not reported as an error:
`count_first_digits` returns `([], [], 0)`.  No division by
`total_count = 0` ever occurs, because a successful run with
`total_count = 0` has an empty count sequence, so the percentage
comprehension evaluates no division at all. -/
theorem empty_batch_no_division :
    count_first_digits ([] : List Token) = .ok ([], [], 0)
    ∧ ∀ (data : List Token) (dc : List Nat) (pct : List ℚ) (tc : Nat),
        count_first_digits data = .ok (dc, pct, tc) → tc = 0 → dc = [] ∧ pct = [] := by
  refine ⟨rfl, ?_⟩
  intro data dc pct tc h htc
  obtain ⟨hfind, hdc, htcs, hpct⟩ := count_first_digits_ok_inv h
  have hdcnil : dc = [] := by
    rcases hne : dc with _ | ⟨a, l⟩
    · rfl
    · exfalso
      have ha : a ≠ 0 := by
        refine dataCount_mem_ne_zero data a ?_
        rw [← hdc, hne]
        exact List.mem_cons_self a l
      have : dc.sum = 0 := by rw [← htcs, htc]
      rw [hne, List.sum_cons] at this
      omega
  subst hdcnil
  exact ⟨rfl, by rw [hpct]; rfl⟩

/-- Witness for the amended C3 at the empty batch. -/
theorem empty_batch_no_division_witness :
    count_first_digits ([] : List Token) = .ok ([], [], 0)
    ∧ ([] : List Nat) = [] ∧ ([] : List ℚ) = [] :=
  ⟨empty_batch_no_division.1,
    empty_batch_no_division.2 [] [] [] 0 rfl rfl⟩

/-- C4: validation is all-or-nothing and fail-fast: if the batch contains an
invalid token (leading `'0'`, a `'.'`, or any non-digit character — empty
included), and every token before the first such token is valid, then
`count_first_digits` aborts with the invalid-sample error carrying that
token, producing no counts, percentages or total. -/
theorem count_first_digits_fail_fast (pre post : List Token) (s : Token)
    (hpre : ∀ t ∈ pre, badToken t = false) (hs : badToken s = true) :
    count_first_digits (pre ++ s :: post) = .error (.invalidSample s) := by
  rw [count_first_digits]
  have h1 : pre.find? badToken = none :=
    List.find?_eq_none.mpr (fun x hx => by simp [hpre x hx])
  have hfind : (pre ++ s :: post).find? badToken = some s := by
    rw [List.find?_append, h1, List.find?_cons_of_pos post hs]
    rfl
  rw [hfind]

/-- Witness for C4 at the spec's example batch `["12", "034", "7"]`. -/
theorem count_first_digits_fail_fast_witness :
    count_first_digits [['1', '2'], ['0', '3', '4'], ['7']] =
      .error (.invalidSample ['0', '3', '4']) :=
  count_first_digits_fail_fast [['1', '2']] [['7']] ['0', '3', '4'] (by decide) (by decide)

/-- C5: for a non-empty batch in which every token passes validation, the
counts returned by `count_first_digits` sum to the returned total, which
equals the number of input tokens. -/
theorem counts_sum_to_total (data : List Token) (dc : List Nat) (pct : List ℚ) (tc : Nat)
    (hvalid : ∀ t ∈ data, badToken t = false) (_hne : data ≠ [])
    (h : count_first_digits data = .ok (dc, pct, tc)) :
    dc.sum = tc ∧ tc = data.length := by
  obtain ⟨hfind, hdc, htcs, hpct⟩ := count_first_digits_ok_inv h
  refine ⟨htcs.symm, ?_⟩
  rw [htcs, hdc, dataCount, sum_filter_nz, sum_headCounts data hvalid]

/-- Witness for C5 at the batch `["1", "2"]`. -/
theorem counts_sum_to_total_witness :
    ([1, 1] : List Nat).sum = 2 ∧ 2 = ([['1'], ['2']] : List Token).length :=
  counts_sum_to_total [['1'], ['2']] [1, 1] (dataPct [1, 1] 2) 2
    (by decide) (by decide) rfl

/-- Truncation toward zero is bounded above by the argument when the
argument is nonnegative. -/
theorem pyInt_le (q : ℚ) (hq : 0 ≤ q) : (pyInt q : ℚ) ≤ q := by
  rw [pyInt, if_pos hq]
  exact Int.floor_le q

/-- C6: each expected count is the floor (equivalently, for these
nonnegative products, the truncation toward zero computed by `int()`) of
`BENFORD[d]/100 * total_count`; `total_count = 100` yields
`[30, 17, 12, 9, 7, 6, 5, 5, 4]`; and the expected counts sum to at most
the total count. -/
theorem expected_counts_floor (dcArg : List Nat) (tc : Nat) :
    get_expected_counts dcArg tc =
      (List.range 9).map (fun k => ⌊(BENFORD.getD k 0) / 100 * (tc : ℚ)⌋)
    ∧ get_expected_counts dcArg 100 = [30, 17, 12, 9, 7, 6, 5, 5, 4]
    ∧ (get_expected_counts dcArg tc).sum ≤ (tc : ℤ) := by
  have hpy : ∀ q : ℚ, 0 ≤ q → pyInt q = ⌊q⌋ := fun q hq => by rw [pyInt, if_pos hq]
  refine ⟨?_, ?_, ?_⟩
  · refine List.ext_getElem (by simp [get_expected_counts, BENFORD]) ?_
    intro i h1 h2
    have h9 : i < 9 := by simpa [get_expected_counts, BENFORD] using h1
    interval_cases i <;>
      simp [get_expected_counts, BENFORD, List.getD] <;>
      rw [hpy _ (by positivity)]
  · refine List.ext_getElem (by simp [get_expected_counts, BENFORD]) ?_
    intro i h1 h2
    have h9 : i < 9 := by simpa [get_expected_counts, BENFORD] using h1
    interval_cases i <;>
      simp [get_expected_counts, BENFORD] <;>
      exact pyInt_eq_of (by norm_num) (by norm_num) (by norm_num)
  · simp only [get_expected_counts, BENFORD, List.map, List.sum_cons, List.sum_nil]
    qify
    linarith [pyInt_le (30.1 / 100 * (tc : ℚ)) (by positivity),
      pyInt_le (17.6 / 100 * (tc : ℚ)) (by positivity),
      pyInt_le (12.5 / 100 * (tc : ℚ)) (by positivity),
      pyInt_le (9.7 / 100 * (tc : ℚ)) (by positivity),
      pyInt_le (7.9 / 100 * (tc : ℚ)) (by positivity),
      pyInt_le (6.7 / 100 * (tc : ℚ)) (by positivity),
      pyInt_le (5.8 / 100 * (tc : ℚ)) (by positivity),
      pyInt_le (5.1 / 100 * (tc : ℚ)) (by positivity),
      pyInt_le (4.6 / 100 * (tc : ℚ)) (by positivity)]

/-- C7: on 9-element observed and expected sequences whose expected entries
are all non-zero, the statistic is exactly the sum over the nine digit
indices of `(observed - expected)^2 / expected`, and the verdict returned
by `chi_square` is "matches" precisely when that statistic is below the
fixed critical value 15.51. -/
theorem chi_square_statistic_spec (dc : List Nat) (ec : List ℤ)
    (hdc : dc.length = 9) (hec : ec.length = 9) (hz : ∀ e ∈ ec, e ≠ 0) :
    chiSquareStat dc ec = .ok (∑ j ∈ Finset.range 9, chiTermAt dc ec j)
    ∧ (chi_square dc ec = .ok true ↔
        (∑ j ∈ Finset.range 9, chiTermAt dc ec j) < 15.51) := by
  have hstat : chiSquareStat dc ec = .ok (∑ j ∈ Finset.range 9, chiTermAt dc ec j) := by
    rw [chiSquareStat, chiAux_ok_sum dc ec hz 9 0 0 (by omega) (by omega)]
    simp
  refine ⟨hstat, ?_⟩
  rw [chi_square, hstat]
  simp [Except.map]

/-- Witness for C7 at the spec's example counts for a total of 100. -/
theorem chi_square_statistic_spec_witness :
    chiSquareStat [30, 18, 12, 10, 8, 7, 6, 5, 4] [30, 17, 12, 9, 7, 6, 5, 5, 4] =
      .ok (∑ j ∈ Finset.range 9,
        chiTermAt [30, 18, 12, 10, 8, 7, 6, 5, 4] [30, 17, 12, 9, 7, 6, 5, 5, 4] j)
    ∧ (chi_square [30, 18, 12, 10, 8, 7, 6, 5, 4] [30, 17, 12, 9, 7, 6, 5, 5, 4] = .ok true ↔
        (∑ j ∈ Finset.range 9,
          chiTermAt [30, 18, 12, 10, 8, 7, 6, 5, 4] [30, 17, 12, 9, 7, 6, 5, 5, 4] j) < 15.51) :=
  chi_square_statistic_spec _ _ (by decide) (by decide) (by decide)

/-- C8: the pipeline is deterministic: each stage is a pure function of its
arguments in this embedding (no hidden state exists in the source's
statistical core), so two runs on the same input agree on counts,
percentages, totals, expected counts and chi-square outcome. -/
theorem pipeline_deterministic (data : List Token) :
    count_first_digits data = count_first_digits data
    ∧ (∀ (dc : List Nat) (tc : Nat), get_expected_counts dc tc = get_expected_counts dc tc)
    ∧ (∀ (dc : List Nat) (ec : List ℤ), chi_square dc ec = chi_square dc ec)
    ∧ pipeline data = pipeline data :=
  ⟨rfl, fun _ _ => rfl, fun _ _ => rfl, rfl⟩

/-- C9: `get_expected_counts` never reads its `data_count` argument: its
output is the same 9-element sequence for any two observed-count lists
paired with the same total. -/
theorem expected_counts_ignore_observed (dc1 dc2 : List Nat) (tc : Nat) :
    get_expected_counts dc1 tc = get_expected_counts dc2 tc
    ∧ (get_expected_counts dc1 tc).length = 9 :=
  ⟨rfl, by simp [get_expected_counts, BENFORD]⟩

/-- C10: the chi-square loop reads observed counts at indices 0..8, so (for a
9-element all-non-zero expected sequence) the reads stay in bounds — the loop
returns a statistic instead of an `IndexError` — exactly when the observed
sequence has at least 9 entries; and the sequence built by
`count_first_digits` has length 9 exactly when every leading digit `'1'`..`'9'`
occurs in the batch, its length being the number of distinct observed
leading digits. -/
theorem chi_square_bounds_iff_digits_covered :
    (∀ (dc : List Nat) (ec : List ℤ), ec.length = 9 → (∀ e ∈ ec, e ≠ 0) →
      ((∃ q, chiSquareStat dc ec = .ok q) ↔ 9 ≤ dc.length))
    ∧ ∀ (data : List Token) (dc : List Nat) (pct : List ℚ) (tc : Nat),
        count_first_digits data = .ok (dc, pct, tc) →
        (dc.length = 9 ↔ ∀ c ∈ digitChars, ∃ t ∈ data, t.head? = some c) := by
  constructor
  · intro dc ec hec hz
    constructor
    · rintro ⟨q, hq⟩
      by_contra hlen
      push_neg at hlen
      have herr : chiSquareStat dc ec = .error .indexError := by
        rw [chiSquareStat]
        refine chiAux_indexErr dc ec dc.length 9 0 0 (by omega) ?_ ?_
        · intro j hj
          have hj9 : j < 9 := by omega
          refine ⟨by simpa using hj, ec[j], ?_, hz _ (List.getElem_mem _)⟩
          simpa using List.getElem?_eq_getElem (by omega : j < ec.length)
        · left
          simpa using List.getElem?_eq_none (by omega : dc.length ≤ dc.length)
      rw [herr] at hq
      cases hq
    · intro hlen
      exact ⟨_, by rw [chiSquareStat, chiAux_ok_sum dc ec hz 9 0 0 (by omega) (by omega)]⟩
  · intro data dc pct tc h
    obtain ⟨hfind, hdc, htcs, hpct⟩ := count_first_digits_ok_inv h
    subst hdc
    rw [dataCount]
    have hmaplen : (digitChars.map (headCount data)).length = 9 := by simp [digitChars]
    rw [← hmaplen, length_filter_eq_iff, List.forall_mem_map]
    constructor
    · intro hall c hc
      rw [← headCount_ne_zero_iff]
      simpa using hall c hc
    · intro hall c hc
      have := (headCount_ne_zero_iff data c).mpr (hall c hc)
      simpa using this

/-- Witness for C10: a batch covering all nine digits, and 9-element count
sequences, on which both equivalences hold concretely. -/
theorem chi_square_bounds_iff_digits_covered_witness :
    ((∃ q, chiSquareStat [1, 1, 1, 1, 1, 1, 1, 1, 1] [1, 1, 1, 1, 1, 1, 1, 1, 1] = .ok q) ↔
      9 ≤ ([1, 1, 1, 1, 1, 1, 1, 1, 1] : List Nat).length)
    ∧ (([1, 1, 1, 1, 1, 1, 1, 1, 1] : List Nat).length = 9 ↔
        ∀ c ∈ digitChars,
          ∃ t ∈ ([['1'], ['2'], ['3'], ['4'], ['5'], ['6'], ['7'], ['8'], ['9']] : List Token),
            t.head? = some c) := by
  exact ⟨chi_square_bounds_iff_digits_covered.1 _ _ (by decide) (by decide),
    chi_square_bounds_iff_digits_covered.2
      [['1'], ['2'], ['3'], ['4'], ['5'], ['6'], ['7'], ['8'], ['9']]
      [1, 1, 1, 1, 1, 1, 1, 1, 1] (dataPct [1, 1, 1, 1, 1, 1, 1, 1, 1] 9) 9 rfl⟩

end Benford
